import Mathlib

/-
Verification of the string-matching core of INSTANT-SOFTWARE-SOLUTIONS.

The repository implements four exact substring-search algorithms (naive,
Knuth-Morris-Pratt, Rabin-Karp, Boyer-Moore-Horspool) several times over:

  * src/js/script.js, lines 363-540: the primary guarded family
    (naiveStringMatching, computeLPS, kmpStringMatching,
    rabinKarpStringMatching, horspoolStringMatching);
  * src/js/script.js, lines 1055-1195: a second, unguarded family used by
    the sentiment UI (naiveSearch, horspoolSearch, kmpSearch, hashingSearch);
  * src/js/sentiment.js, lines 24-185: naiveSearch, kmpSearch, hashingSearch,
    horspoolSearch, character-for-character identical to the primary family
    of script.js;
  * src/js/search.js, lines 29-93: computeLPS (identical to script.js) and a
    kmpStringMatching variant that lowercases both inputs before matching;
  * src/cpp/Mathcing_Algorithms.cpp: a C++ class with its own naive matcher,
    Rabin-Karp, KMP and Horspool helper.

JavaScript strings are modelled as lists of natural numbers (UTF-16 code
units); indexing text[i] and charCodeAt(i) coincide on that model, and
equality of one-code-unit strings is equality of the code units.
-/

/-- A JavaScript string, viewed as its list of UTF-16 code units. -/
abbrev Str := List Nat

/-- Character-by-character comparison of pattern against the window of text
starting at offset i, as performed by the inner loop
`for (let j = 0; j < m; j++) if (text[i+j] !== pattern[j]) ...`
of the naive matcher (script.js, lines 372-377). -/
def windowMatch (text pattern : Str) (i : Nat) : Bool :=
  (List.range pattern.length).all fun j => text.getD (i + j) 0 == pattern.getD j 0

/-- Reference definition of substring occurrence, in the words of the
specification: offset i is an occurrence when the window fits inside the
text and text[i..i+len(pattern)) equals the pattern character for
character. -/
def occursAt (text pattern : Str) (i : Nat) : Prop :=
  i + pattern.length ≤ text.length ∧
    ∀ j, j < pattern.length → text.getD (i + j) 0 = pattern.getD j 0

instance (text pattern : Str) (i : Nat) : Decidable (occursAt text pattern i) :=
  decidable_of_iff
    (i + pattern.length ≤ text.length ∧
      ∀ j, j < pattern.length → text.getD (i + j) 0 = pattern.getD j 0) Iff.rfl

/-- Reference list of all occurrences, in increasing order: every offset
from 0 to len(text) - len(pattern) inclusive at which the pattern occurs.
This is the sequence the specification calls the set of match offsets. -/
def refOccurrences (text pattern : Str) : List Nat :=
  (List.range (text.length + 1)).filter fun i => decide (occursAt text pattern i)

/-- The naive matcher of script.js, lines 363-383 (naiveStringMatching).
Guard: `if (!pattern || !text || pattern.length > text.length) return matches;`
then a window scan for i from 0 to n - m inclusive. -/
def naiveStringMatching (text pattern : Str) : List Nat :=
  if pattern.length = 0 ∨ text.length = 0 ∨ text.length < pattern.length then []
  else (List.range (text.length - pattern.length + 1)).filter fun i =>
    windowMatch text pattern i

/- ------------------------------------------------------------------ -/
/- Basic lemmas about windows, occurrences and filtered ranges.       -/
/- ------------------------------------------------------------------ -/

theorem windowMatch_iff (text pattern : Str) (i : Nat) :
    windowMatch text pattern i = true ↔
      ∀ j, j < pattern.length → text.getD (i + j) 0 = pattern.getD j 0 := by
  simp only [windowMatch, List.all_eq_true, List.mem_range, beq_iff_eq]

theorem occursAt_iff_windowMatch (text pattern : Str) (i : Nat)
    (hle : i + pattern.length ≤ text.length) :
    occursAt text pattern i ↔ windowMatch text pattern i = true := by
  rw [windowMatch_iff]
  constructor
  · exact fun h => h.2
  · exact fun h => ⟨hle, h⟩

/-- Extending the range of a filter over an interval of values on which the
predicate is false does not change the result. -/
theorem filter_range_eq_of_false (f : Nat → Bool) (a b : Nat) (hab : a ≤ b)
    (h : ∀ t, a ≤ t → t < b → f t = false) :
    (List.range b).filter f = (List.range a).filter f := by
  induction b with
  | zero => cases Nat.le_zero.mp hab; rfl
  | succ b ih =>
    rcases Nat.lt_or_ge a (b + 1) with hlt | hge
    · have hab2 : a ≤ b := Nat.lt_succ_iff.mp hlt
      rw [List.range_succ, List.filter_append]
      have hb : f b = false := h b hab2 (Nat.lt_succ_self b)
      simp only [List.filter, hb]
      rw [List.append_nil]
      exact ih hab2 fun t hta htb => h t hta (Nat.lt_succ_of_lt htb)
    · have : a = b + 1 := Nat.le_antisymm hab hge
      rw [this]

/-- Growing the range of a filter across an interval whose only accepted
value is its left endpoint appends exactly that value. -/
theorem filter_range_eq_append_of_true (f : Nat → Bool) (a b : Nat) (hab : a < b)
    (ha : f a = true) (h : ∀ t, a < t → t < b → f t = false) :
    (List.range b).filter f = (List.range a).filter f ++ [a] := by
  induction b with
  | zero => omega
  | succ b ih =>
    rcases Nat.lt_or_ge a b with hlt | hge
    · rw [List.range_succ, List.filter_append]
      have hb : f b = false := h b hlt (Nat.lt_succ_self b)
      simp only [List.filter, hb]
      rw [List.append_nil]
      exact ih hlt fun t hta htb => h t hta (Nat.lt_succ_of_lt htb)
    · have : a = b := Nat.le_antisymm (Nat.lt_succ_iff.mp hab) hge
      subst this
      rw [List.range_succ, List.filter_append]
      simp only [List.filter, ha]

/-- Every occurrence needs room for the whole pattern. -/
theorem occursAt_lt (text pattern : Str) (k : Nat) (h : occursAt text pattern k) :
    k + pattern.length ≤ text.length := h.1

/-- The naive matcher computes exactly the reference occurrence list, for
every non-empty pattern. -/
theorem naive_eq_ref (text pattern : Str) (hp : pattern ≠ []) :
    naiveStringMatching text pattern = refOccurrences text pattern := by
  have hm : 0 < pattern.length := List.length_pos.mpr hp
  unfold naiveStringMatching refOccurrences
  rcases Nat.lt_or_ge text.length pattern.length with hlt | hge
  · rw [if_pos (Or.inr (Or.inr hlt))]
    have h0 : (List.range (text.length + 1)).filter
        (fun i => decide (occursAt text pattern i)) =
        (List.range 0).filter (fun i => decide (occursAt text pattern i)) := by
      apply filter_range_eq_of_false _ 0 _ (Nat.zero_le _)
      intro t _ _
      simp only [decide_eq_false_iff_not]
      intro hocc
      have := hocc.1
      omega
    rw [h0]
    rfl
  · have hn0 : text.length ≠ 0 := by omega
    rw [if_neg (by push_neg; exact ⟨by omega, hn0, by omega⟩)]
    have hsplit :
        (List.range (text.length + 1)).filter (fun i => decide (occursAt text pattern i)) =
        (List.range (text.length - pattern.length + 1)).filter
          (fun i => decide (occursAt text pattern i)) := by
      apply filter_range_eq_of_false _ _ _ (by omega)
      intro t hta _
      simp only [decide_eq_false_iff_not]
      intro hocc
      have := hocc.1
      omega
    rw [hsplit]
    apply List.filter_congr
    intro i hi
    have hi2 : i < text.length - pattern.length + 1 := List.mem_range.mp hi
    have hle : i + pattern.length ≤ text.length := by omega
    by_cases hw : windowMatch text pattern i = true
    · rw [hw]
      exact (decide_eq_true ((occursAt_iff_windowMatch text pattern i hle).mpr hw)).symm
    · have hw2 : windowMatch text pattern i = false := Bool.eq_false_iff.mpr hw
      rw [hw2]
      symm
      exact decide_eq_false fun hocc =>
        hw ((occursAt_iff_windowMatch text pattern i hle).mp hocc)

/- ------------------------------------------------------------------ -/
/- LPS table: specification and the computeLPS loop.                  -/
/- ------------------------------------------------------------------ -/

/-- The prefix of p of length k equals, character for character, the suffix
of length k of the prefix of p of length l. -/
def sfx (p : Str) (k l : Nat) : Prop :=
  k ≤ l ∧ ∀ j, j < k → p.getD (l - k + j) 0 = p.getD j 0

instance (p : Str) (k l : Nat) : Decidable (sfx p k l) :=
  decidable_of_iff
    (k ≤ l ∧ ∀ j, j < k → p.getD (l - k + j) 0 = p.getD j 0) Iff.rfl

/-- Specification of the LPS table, in the words of the spec: lps[i] is the
length of the longest proper prefix of pattern[0..=i] that is also a suffix
of it. -/
def lpsSpec (p : Str) (i : Nat) : Nat :=
  Nat.findGreatest (fun k => k < i + 1 ∧ sfx p k (i + 1)) i

theorem sfx_zero (p : Str) (l : Nat) : sfx p 0 l :=
  ⟨Nat.zero_le l, fun j hj => absurd hj (Nat.not_lt_zero j)⟩

theorem sfx_trans (p : Str) (k l i : Nat) (h1 : sfx p k l) (h2 : sfx p l i) :
    sfx p k i := by
  obtain ⟨hkl, hk⟩ := h1
  obtain ⟨hli, hl⟩ := h2
  refine ⟨Nat.le_trans hkl hli, fun j hj => ?_⟩
  have e1 : i - k + j = i - l + (l - k + j) := by omega
  have e2 : l - k + j < l := by omega
  rw [e1, hl _ e2, hk _ hj]

theorem sfx_extend (p : Str) (k l : Nat) (hkl : k ≤ l)
    (h : sfx p k l) (hc : p.getD l 0 = p.getD k 0) : sfx p (k + 1) (l + 1) := by
  obtain ⟨_, hk⟩ := h
  refine ⟨by omega, fun j hj => ?_⟩
  rcases Nat.lt_or_ge j k with hjk | hjk
  · have e1 : l + 1 - (k + 1) + j = l - k + j := by omega
    rw [e1, hk _ hjk]
  · have hjeq : j = k := by omega
    subst hjeq
    have e1 : l + 1 - (j + 1) + j = l := by omega
    rw [e1, hc]

theorem sfx_shrink (p : Str) (k l : Nat) (h : sfx p (k + 1) (l + 1)) :
    sfx p k l ∧ p.getD l 0 = p.getD k 0 := by
  obtain ⟨hkl, hk⟩ := h
  constructor
  · refine ⟨by omega, fun j hj => ?_⟩
    have e1 : l - k + j = l + 1 - (k + 1) + j := by omega
    rw [e1, hk _ (by omega)]
  · have := hk k (Nat.lt_succ_self k)
    have e1 : l + 1 - (k + 1) + k = l := by omega
    rwa [e1] at this

/-- Nested suffixes: the length-k suffix of a block is a suffix of any longer
suffix of the same block. -/
theorem sfx_of_sfx_sfx (p : Str) (k l i : Nat) (hkl : k ≤ l)
    (h1 : sfx p k i) (h2 : sfx p l i) : sfx p k l := by
  obtain ⟨hki, hk⟩ := h1
  obtain ⟨hli, hl⟩ := h2
  refine ⟨hkl, fun j hj => ?_⟩
  have e1 : i - k + j = i - l + (l - k + j) := by omega
  have e2 : l - k + j < l := by omega
  have step := hl _ e2
  rw [← e1] at step
  rw [← step]
  exact hk j hj

theorem lpsSpec_le (p : Str) (i : Nat) : lpsSpec p i ≤ i :=
  Nat.findGreatest_le i

theorem lpsSpec_sfx (p : Str) (i : Nat) : sfx p (lpsSpec p i) (i + 1) := by
  by_cases h : lpsSpec p i = 0
  · rw [h]
    exact sfx_zero p (i + 1)
  · unfold lpsSpec at h ⊢
    exact And.right (Nat.findGreatest_of_ne_zero rfl h)

theorem le_lpsSpec (p : Str) (i k : Nat) (hk : k ≤ i) (h : sfx p k (i + 1)) :
    k ≤ lpsSpec p i :=
  Nat.le_findGreatest hk ⟨by omega, h⟩

theorem lpsSpec_is_greatest (p : Str) (i k : Nat) (h1 : lpsSpec p i < k)
    (h2 : k ≤ i) : ¬ sfx p k (i + 1) := by
  intro hs
  exact absurd (le_lpsSpec p i k h2 hs) (by omega)

/-- One functional reading of the computeLPS while-loop of script.js
(lines 395-408) and search.js (lines 35-48): state is the two cursors
len and i together with the table under construction; the fuel argument
bounds the number of iterations and is chosen large enough that it is
never exhausted (each iteration strictly increases 2*i - len). -/
def lpsGo (p : Str) : Nat → Nat → Nat → List Nat → List Nat
  | 0, _, _, lps => lps
  | fuel + 1, len, i, lps =>
    if i < p.length then
      if p.getD i 0 = p.getD len 0 then
        lpsGo p fuel (len + 1) (i + 1) (lps.set i (len + 1))
      else if len ≠ 0 then
        lpsGo p fuel (lps.getD (len - 1) 0) i lps
      else
        lpsGo p fuel len (i + 1) (lps.set i 0)
    else lps

/-- The computeLPS function of script.js, lines 389-410 (identical in
search.js, lines 29-50, and inlined in sentiment.js kmpSearch and the
C++ class): table initialised to all zeroes, cursors len = 0 and i = 1. -/
def computeLPS (p : Str) : List Nat :=
  lpsGo p (2 * p.length + 1) 0 1 (List.replicate p.length 0)

theorem getD_set_self (l : List Nat) (i v : Nat) (h : i < l.length) :
    (l.set i v).getD i 0 = v := by
  rw [List.getD_eq_getElem _ _ (by simpa using h)]
  simp

theorem getD_set_ne (l : List Nat) (i t v : Nat) (h : t ≠ i) :
    (l.set i v).getD t 0 = l.getD t 0 := by
  simp [List.getD_eq_getElem?_getD, List.getElem?_set_ne (Ne.symm h)]

/-- Invariant-based correctness of the computeLPS loop: starting from a
state in which the table is correct below the scan cursor, the current
matched length is a suffix candidate, and no longer candidate can be
extended, the loop fills the rest of the table with the specified values. -/
theorem lpsGo_correct (p : Str) (fuel : Nat) :
    ∀ len i lps,
      2 * p.length + 1 + len ≤ fuel + 2 * i →
      lps.length = p.length →
      len < i →
      (∀ t, t < i → t < p.length → lps.getD t 0 = lpsSpec p t) →
      sfx p len i →
      (∀ k, len < k → k < i → sfx p k i → p.getD k 0 ≠ p.getD i 0) →
      (lpsGo p fuel len i lps).length = p.length ∧
        ∀ t, t < p.length → (lpsGo p fuel len i lps).getD t 0 = lpsSpec p t := by
  induction fuel with
  | zero =>
    intro len i lps hfuel ha hb hc _ _
    have hi : p.length < i := by omega
    exact ⟨ha, fun t ht => hc t (by omega) ht⟩
  | succ fuel ih =>
    intro len i lps hfuel ha hb hc hd he
    by_cases hi : i < p.length
    · rw [lpsGo, if_pos hi]
      by_cases hmatch : p.getD i 0 = p.getD len 0
      · rw [if_pos hmatch]
        have hsfx1 : sfx p (len + 1) (i + 1) :=
          sfx_extend p len i (Nat.le_of_lt hb) hd hmatch
        have hle1 : len + 1 ≤ lpsSpec p i :=
          le_lpsSpec p i (len + 1) (by omega) hsfx1
        have hge1 : lpsSpec p i ≤ len + 1 := by
          by_contra hgt
          push_neg at hgt
          have hK : sfx p (lpsSpec p i) (i + 1) := lpsSpec_sfx p i
          have hKle : lpsSpec p i ≤ i := lpsSpec_le p i
          obtain ⟨K, hKeq⟩ : ∃ K, lpsSpec p i = K + 1 := ⟨lpsSpec p i - 1, by omega⟩
          rw [hKeq] at hK
          obtain ⟨hK2, hK3⟩ := sfx_shrink p K i hK
          exact he K (by omega) (by omega) hK2 hK3.symm
        have hspec : lpsSpec p i = len + 1 := by omega
        apply ih (len + 1) (i + 1) (lps.set i (len + 1)) (by omega)
          (by rw [List.length_set]; exact ha) (by omega)
        · intro t ht htm
          by_cases hti : t = i
          · subst hti
            rw [getD_set_self lps t (len + 1) (by omega), hspec]
          · rw [getD_set_ne lps i t (len + 1) hti]
            exact hc t (by omega) htm
        · exact hsfx1
        · intro k hk1 hk2 hs
          exact absurd hs (lpsSpec_is_greatest p i k (by omega) (by omega))
      · rw [if_neg hmatch]
        by_cases hlen : len ≠ 0
        · rw [if_pos hlen]
          have hlm : len - 1 < p.length := by omega
          have hrw : lps.getD (len - 1) 0 = lpsSpec p (len - 1) :=
            hc (len - 1) (by omega) hlm
          have hrw2 : len - 1 + 1 = len := by omega
          have hsfx2 : sfx p (lpsSpec p (len - 1)) len := by
            have := lpsSpec_sfx p (len - 1)
            rwa [hrw2] at this
          have hlt2 : lpsSpec p (len - 1) ≤ len - 1 := lpsSpec_le p (len - 1)
          rw [hrw]
          apply ih (lpsSpec p (len - 1)) i lps (by omega) ha (by omega) hc
          · exact sfx_trans p (lpsSpec p (len - 1)) len i hsfx2 hd
          · intro k hk1 hk2 hs
            rcases Nat.lt_trichotomy k len with hkl | hkl | hkl
            · intro hcontra
              have hs2 : sfx p k len :=
                sfx_of_sfx_sfx p k len i (Nat.le_of_lt hkl) hs hd
              have : k ≤ lpsSpec p (len - 1) := by
                apply le_lpsSpec p (len - 1) k (by omega)
                rwa [hrw2]
              omega
            · subst hkl
              exact fun hcontra => hmatch hcontra.symm
            · exact he k hkl hk2 hs
        · rw [if_neg hlen]
          push_neg at hlen
          subst hlen
          have hspec0 : lpsSpec p i = 0 := by
            apply Nat.findGreatest_eq_zero_iff.mpr
            intro k hk0 hki hP
            obtain ⟨K, hKeq⟩ : ∃ K, k = K + 1 := ⟨k - 1, by omega⟩
            subst hKeq
            obtain ⟨hK2, hK3⟩ := sfx_shrink p K i hP.2
            rcases Nat.eq_zero_or_pos K with hK0 | hK0
            · subst hK0
              exact hmatch hK3
            · exact he K hK0 (by omega) hK2 hK3.symm
          apply ih 0 (i + 1) (lps.set i 0) (by omega)
            (by rw [List.length_set]; exact ha) (by omega)
          · intro t ht htm
            by_cases hti : t = i
            · subst hti
              rw [getD_set_self lps t 0 (by omega), hspec0]
            · rw [getD_set_ne lps i t 0 hti]
              exact hc t (by omega) htm
          · exact sfx_zero p (i + 1)
          · intro k hk1 hk2 hs
            exact absurd hs (lpsSpec_is_greatest p i k (by omega) (by omega))
    · rw [lpsGo, if_neg hi]
      exact ⟨ha, fun t ht => hc t (by omega) ht⟩

/-- The computeLPS function returns the table specified by lpsSpec: entry i
holds the length of the longest proper prefix of pattern[0..=i] that is
also a suffix of it. -/
theorem computeLPS_correct (p : Str) :
    (computeLPS p).length = p.length ∧
      ∀ t, t < p.length → (computeLPS p).getD t 0 = lpsSpec p t := by
  unfold computeLPS
  rcases Nat.eq_zero_or_pos p.length with h0 | h0
  · have hp : p = [] := List.length_eq_zero.mp h0
    subst hp
    exact ⟨rfl, fun t ht => by simp at ht⟩
  · apply lpsGo_correct p (2 * p.length + 1) 0 1 (List.replicate p.length 0)
      (by omega) (List.length_replicate _ _) (by omega)
    · intro t ht htm
      have ht0 : t = 0 := by omega
      subst ht0
      have hs0 : lpsSpec p 0 = 0 := by
        have := lpsSpec_le p 0
        omega
      rw [hs0]
      rw [List.getD_eq_getElem _ _ (by simpa using htm)]
      simp
    · exact sfx_zero p 1
    · intro k hk1 hk2 _
      omega

/- ------------------------------------------------------------------ -/
/- KMP matcher.                                                       -/
/- ------------------------------------------------------------------ -/

/-- One iteration of the KMP while-loop of script.js (lines 424-440),
identical in sentiment.js kmpSearch: first the `if match then advance both
cursors` step, then either the match-recording branch (j reached m), the
mismatch fallback, or nothing. Returns the new text cursor, the new
pattern cursor, and whether a match (at new i minus pattern length) was
recorded this iteration. -/
def kmpStep (text pattern : Str) (lps : List Nat) (i j : Nat) : Nat × Nat × Bool :=
  let a := if text.getD i 0 = pattern.getD j 0 then (i + 1, j + 1) else (i, j)
  if a.2 = pattern.length then (a.1, lps.getD (a.2 - 1) 0, true)
  else if a.1 < text.length ∧ text.getD a.1 0 ≠ pattern.getD a.2 0 then
    if a.2 ≠ 0 then (a.1, lps.getD (a.2 - 1) 0, false)
    else (a.1 + 1, a.2, false)
  else (a.1, a.2, false)

/-- The KMP search loop: iterate kmpStep while i < n, recording matches.
The fuel argument bounds the iteration count; each iteration strictly
increases 2*i - j, so 2n + 2 units are always enough. -/
def kmpGo (text pattern : Str) (lps : List Nat) : Nat → Nat → Nat → List Nat → List Nat
  | 0, _, _, acc => acc
  | fuel + 1, i, j, acc =>
    if i < text.length then
      kmpGo text pattern lps fuel
        (kmpStep text pattern lps i j).1
        (kmpStep text pattern lps i j).2.1
        (if (kmpStep text pattern lps i j).2.2 then
          acc ++ [(kmpStep text pattern lps i j).1 - pattern.length]
        else acc)
    else acc

/-- The KMP matcher of script.js, lines 412-442 (kmpStringMatching),
identical to sentiment.js kmpSearch (lines 50-98): guard
`if (!pattern || !text) return matches; ... if (m === 0) return matches;`,
then the LPS table is built and the two-cursor scan runs from (0, 0). -/
def kmpStringMatching (text pattern : Str) : List Nat :=
  if pattern.length = 0 ∨ text.length = 0 then []
  else kmpGo text pattern (computeLPS pattern) (2 * text.length + 2) 0 0 []

theorem kmpStep_match_push (text pattern : Str) (lps : List Nat) (i j : Nat)
    (h1 : text.getD i 0 = pattern.getD j 0) (h2 : j + 1 = pattern.length) :
    kmpStep text pattern lps i j = (i + 1, lps.getD j 0, true) := by
  unfold kmpStep
  rw [if_pos h1]
  dsimp only
  rw [if_pos h2, Nat.add_sub_cancel]

theorem kmpStep_match_fallback (text pattern : Str) (lps : List Nat) (i j : Nat)
    (h1 : text.getD i 0 = pattern.getD j 0) (h2 : j + 1 ≠ pattern.length)
    (h3 : i + 1 < text.length ∧ text.getD (i + 1) 0 ≠ pattern.getD (j + 1) 0) :
    kmpStep text pattern lps i j = (i + 1, lps.getD j 0, false) := by
  unfold kmpStep
  rw [if_pos h1]
  dsimp only
  rw [if_neg h2, if_pos h3, if_pos (Nat.succ_ne_zero j), Nat.add_sub_cancel]

theorem kmpStep_match_cont (text pattern : Str) (lps : List Nat) (i j : Nat)
    (h1 : text.getD i 0 = pattern.getD j 0) (h2 : j + 1 ≠ pattern.length)
    (h3 : ¬(i + 1 < text.length ∧ text.getD (i + 1) 0 ≠ pattern.getD (j + 1) 0)) :
    kmpStep text pattern lps i j = (i + 1, j + 1, false) := by
  unfold kmpStep
  rw [if_pos h1]
  dsimp only
  rw [if_neg h2, if_neg h3]

theorem kmpStep_mismatch_fb (text pattern : Str) (lps : List Nat) (i j : Nat)
    (h1 : ¬ text.getD i 0 = pattern.getD j 0) (hjm : j ≠ pattern.length)
    (hin : i < text.length) (hj0 : j ≠ 0) :
    kmpStep text pattern lps i j = (i, lps.getD (j - 1) 0, false) := by
  unfold kmpStep
  rw [if_neg h1]
  dsimp only
  rw [if_neg hjm, if_pos (And.intro hin h1), if_pos hj0]

theorem kmpStep_mismatch_adv (text pattern : Str) (lps : List Nat) (i : Nat)
    (h1 : ¬ text.getD i 0 = pattern.getD 0 0) (hjm : (0 : Nat) ≠ pattern.length)
    (hin : i < text.length) :
    kmpStep text pattern lps i 0 = (i + 1, 0, false) := by
  have hj0 : ¬ ((0 : Nat) ≠ 0) := by omega
  unfold kmpStep
  rw [if_neg h1]
  dsimp only
  rw [if_neg hjm, if_pos (And.intro hin h1), if_neg hj0]

/-- No occurrence can start strictly inside the zone skipped by an LPS
fallback: if the J characters ending at position X match the pattern
prefix of length J, an occurrence starting after X - J but before
X - lpsSpec(J-1) would give a longer border of that prefix than the
longest one. -/
theorem occ_dead_zone (text pattern : Str) (X J : Nat)
    (hJX : J ≤ X) (hJm : J ≤ pattern.length) (hJ1 : 1 ≤ J)
    (hmatched : ∀ s, s < J → text.getD (X - J + s) 0 = pattern.getD s 0)
    (t : Nat) (ht1 : X - J < t) (ht2 : t < X - lpsSpec pattern (J - 1)) :
    ¬ occursAt text pattern t := by
  intro hocc
  have hspecle : lpsSpec pattern (J - 1) ≤ J - 1 := lpsSpec_le pattern (J - 1)
  have hlJ : X - t < J := by omega
  have hl1 : 1 ≤ X - t := by omega
  have hlgt : lpsSpec pattern (J - 1) < X - t := by omega
  have hsfx : sfx pattern (X - t) J := by
    refine ⟨by omega, fun s hs => ?_⟩
    have h1 : text.getD (t + s) 0 = pattern.getD s 0 := hocc.2 s (by omega)
    have h2 : text.getD (X - J + (J - (X - t) + s)) 0 =
        pattern.getD (J - (X - t) + s) 0 := hmatched _ (by omega)
    have he : X - J + (J - (X - t) + s) = t + s := by omega
    rw [he] at h2
    exact h2.symm.trans h1
  have hsfx2 : sfx pattern (X - t) (J - 1 + 1) := by
    have hJe : J - 1 + 1 = J := by omega
    rwa [hJe]
  have := le_lpsSpec pattern (J - 1) (X - t) (by omega) hsfx2
  omega

/-- The window at the current candidate start cannot be an occurrence when
the character just past the matched block mismatches. -/
theorem occ_at_cand_false (text pattern : Str) (X J : Nat)
    (hJX : J ≤ X) (hJm : J < pattern.length)
    (hmis : text.getD X 0 ≠ pattern.getD J 0) :
    ¬ occursAt text pattern (X - J) := by
  intro hocc
  have := hocc.2 J hJm
  have he : X - J + J = X := by omega
  rw [he] at this
  exact hmis this

/-- After an LPS fallback the shorter matched block still matches: the
length-lpsSpec(J-1) suffix of the matched region is the corresponding
pattern prefix. -/
theorem matched_shift (text pattern : Str) (X J : Nat)
    (hJX : J ≤ X) (hJ1 : 1 ≤ J)
    (hmatched : ∀ s, s < J → text.getD (X - J + s) 0 = pattern.getD s 0) :
    ∀ s, s < lpsSpec pattern (J - 1) →
      text.getD (X - lpsSpec pattern (J - 1) + s) 0 = pattern.getD s 0 := by
  intro s hs
  have hspecle : lpsSpec pattern (J - 1) ≤ J - 1 := lpsSpec_le pattern (J - 1)
  have hsfx : sfx pattern (lpsSpec pattern (J - 1)) (J - 1 + 1) := lpsSpec_sfx pattern (J - 1)
  have hJe : J - 1 + 1 = J := by omega
  rw [hJe] at hsfx
  have h2 : text.getD (X - J + (J - lpsSpec pattern (J - 1) + s)) 0 =
      pattern.getD (J - lpsSpec pattern (J - 1) + s) 0 := hmatched _ (by omega)
  have h3 : pattern.getD (J - lpsSpec pattern (J - 1) + s) 0 = pattern.getD s 0 :=
    hsfx.2 s hs
  have he : X - J + (J - lpsSpec pattern (J - 1) + s) = X - lpsSpec pattern (J - 1) + s := by
    omega
  rw [he] at h2
  rw [h3] at h2
  exact h2

/-- Invariant-based correctness of the KMP search loop: if the matched
block invariant and the recorded-matches invariant hold, the loop computes
exactly the reference occurrence list. -/
theorem kmpGo_correct (text pattern : Str) (lps : List Nat)
    (hlps : ∀ t, t < pattern.length → lps.getD t 0 = lpsSpec pattern t)
    (hm : 0 < pattern.length) :
    ∀ fuel i j acc,
      2 * text.length + 1 + j ≤ fuel + 2 * i →
      j ≤ i → i ≤ text.length → j < pattern.length →
      (∀ s, s < j → text.getD (i - j + s) 0 = pattern.getD s 0) →
      acc = (List.range (i - j)).filter (fun k => decide (occursAt text pattern k)) →
      kmpGo text pattern lps fuel i j acc = refOccurrences text pattern := by
  intro fuel
  induction fuel with
  | zero =>
    intro i j acc hfuel hji hin hjm _ _
    exact absurd hfuel (by omega)
  | succ fuel ih =>
    intro i j acc hfuel hji hin hjm hk2 hacc
    by_cases hilt : i < text.length
    · by_cases hchar : text.getD i 0 = pattern.getD j 0
      · by_cases hjm1 : j + 1 = pattern.length
        · -- full match: record i - j, fall back to lpsSpec (m-1)
          rw [kmpGo, if_pos hilt, kmpStep_match_push text pattern lps i j hchar hjm1]
          dsimp only
          rw [if_pos rfl, hlps j hjm]
          have hspecle : lpsSpec pattern j ≤ j := lpsSpec_le pattern j
          have hfull : ∀ s, s < pattern.length →
              text.getD (i - j + s) 0 = pattern.getD s 0 := by
            intro s hs
            rcases Nat.lt_or_ge s j with hsj | hsj
            · exact hk2 s hsj
            · have hsj2 : s = j := by omega
              subst hsj2
              have he : i - s + s = i := by omega
              rw [he]
              exact hchar
          have hocc : occursAt text pattern (i - j) := by
            refine ⟨by omega, fun s hs => ?_⟩
            exact hfull s hs
          have hpush : i + 1 - pattern.length = i - j := by omega
          rw [hpush]
          apply ih (i + 1) (lpsSpec pattern j) _ (by omega) (by omega) (by omega) (by omega)
          · -- shifted matched block
            have hms := matched_shift text pattern (i + 1) pattern.length
              (by omega) (by omega) ?_
            · have he : pattern.length - 1 = j := by omega
              rw [he] at hms
              intro s hs
              have := hms s hs
              rwa [show i + 1 - lpsSpec pattern j = i + 1 - lpsSpec pattern j from rfl] at this
            · intro s hs
              have he : i + 1 - pattern.length = i - j := by omega
              rw [he]
              exact hfull s hs
          · -- accumulator after the push
            rw [hacc]
            symm
            apply filter_range_eq_append_of_true _ (i - j) (i + 1 - lpsSpec pattern j)
              (by omega) (decide_eq_true hocc)
            intro t ht1 ht2
            apply decide_eq_false
            have hdz := occ_dead_zone text pattern (i + 1) pattern.length
              (by omega) (by omega) (by omega) ?_ t ?_ ?_
            · exact hdz
            · intro s hs
              have he : i + 1 - pattern.length = i - j := by omega
              rw [he]
              exact hfull s hs
            · omega
            · have he : pattern.length - 1 = j := by omega
              rw [he]
              omega
        · by_cases hmis : i + 1 < text.length ∧
              text.getD (i + 1) 0 ≠ pattern.getD (j + 1) 0
          · -- match one character, then immediate mismatch fallback
            rw [kmpGo, if_pos hilt,
              kmpStep_match_fallback text pattern lps i j hchar hjm1 hmis]
            dsimp only
            rw [if_neg Bool.false_ne_true, hlps j hjm]
            have hspecle : lpsSpec pattern j ≤ j := lpsSpec_le pattern j
            have hextend : ∀ s, s < j + 1 →
                text.getD (i + 1 - (j + 1) + s) 0 = pattern.getD s 0 := by
              intro s hs
              have he : i + 1 - (j + 1) = i - j := by omega
              rw [he]
              rcases Nat.lt_or_ge s j with hsj | hsj
              · exact hk2 s hsj
              · have hsj2 : s = j := by omega
                subst hsj2
                have he2 : i - s + s = i := by omega
                rw [he2]
                exact hchar
            apply ih (i + 1) (lpsSpec pattern j) _ (by omega) (by omega) (by omega) (by omega)
            · -- shifted matched block
              have hms := matched_shift text pattern (i + 1) (j + 1)
                (by omega) (by omega) hextend
              have he : j + 1 - 1 = j := by omega
              rw [he] at hms
              exact hms
            · -- accumulator is unchanged; the skipped zone is dead
              rw [hacc]
              symm
              apply filter_range_eq_of_false _ (i - j) (i + 1 - lpsSpec pattern j) (by omega)
              intro t ht1 ht2
              apply decide_eq_false
              rcases Nat.lt_or_ge (i - j) t with htgt | htle
              · have hdz := occ_dead_zone text pattern (i + 1) (j + 1)
                  (by omega) (by omega) (by omega) hextend t (by omega) ?_
                · exact hdz
                · have he : j + 1 - 1 = j := by omega
                  rw [he]
                  omega
              · have hteq : t = i - j := by omega
                subst hteq
                have hcand := occ_at_cand_false text pattern (i + 1) (j + 1)
                  (by omega) (by omega) hmis.2
                have he : i + 1 - (j + 1) = i - j := by omega
                rw [he] at hcand
                exact hcand
          · -- match one character, nothing else this iteration
            rw [kmpGo, if_pos hilt,
              kmpStep_match_cont text pattern lps i j hchar hjm1 hmis]
            dsimp only
            rw [if_neg Bool.false_ne_true]
            apply ih (i + 1) (j + 1) _ (by omega) (by omega) (by omega) (by omega)
            · intro s hs
              have he : i + 1 - (j + 1) = i - j := by omega
              rw [he]
              rcases Nat.lt_or_ge s j with hsj | hsj
              · exact hk2 s hsj
              · have hsj2 : s = j := by omega
                subst hsj2
                have he2 : i - s + s = i := by omega
                rw [he2]
                exact hchar
            · rw [hacc]
              have he : i + 1 - (j + 1) = i - j := by omega
              rw [he]
      · by_cases hj0 : j ≠ 0
        · -- mismatch with j nonzero: LPS fallback, text cursor unchanged
          rw [kmpGo, if_pos hilt,
            kmpStep_mismatch_fb text pattern lps i j hchar (by omega) hilt hj0]
          dsimp only
          rw [if_neg Bool.false_ne_true, hlps (j - 1) (by omega)]
          have hspecle : lpsSpec pattern (j - 1) ≤ j - 1 := lpsSpec_le pattern (j - 1)
          apply ih i (lpsSpec pattern (j - 1)) _ (by omega) (by omega) (by omega) (by omega)
          · exact matched_shift text pattern i j (by omega) (by omega) hk2
          · rw [hacc]
            symm
            apply filter_range_eq_of_false _ (i - j) (i - lpsSpec pattern (j - 1)) (by omega)
            intro t ht1 ht2
            apply decide_eq_false
            rcases Nat.lt_or_ge (i - j) t with htgt | htle
            · exact occ_dead_zone text pattern i j (by omega) (by omega) (by omega)
                hk2 t (by omega) (by omega)
            · have hteq : t = i - j := by omega
              subst hteq
              exact occ_at_cand_false text pattern i j (by omega) (by omega) hchar
        · -- mismatch with j = 0: advance the text cursor
          push_neg at hj0
          subst hj0
          rw [kmpGo, if_pos hilt,
            kmpStep_mismatch_adv text pattern lps i hchar (by omega) hilt]
          dsimp only
          rw [if_neg Bool.false_ne_true]
          apply ih (i + 1) 0 _ (by omega) (by omega) (by omega) (by omega)
          · intro s hs
            omega
          · rw [hacc]
            symm
            apply filter_range_eq_of_false _ (i - 0) (i + 1 - 0) (by omega)
            intro t ht1 ht2
            apply decide_eq_false
            have hteq : t = i := by omega
            subst hteq
            have hcand := occ_at_cand_false text pattern t 0 (by omega) hm hchar
            have he : t - 0 = t := by omega
            rw [he] at hcand
            exact hcand
    · -- loop exit: i has reached the end of the text
      rw [kmpGo, if_neg hilt]
      rw [hacc]
      unfold refOccurrences
      symm
      apply filter_range_eq_of_false _ (i - j) (text.length + 1) (by omega)
      intro t ht1 ht2
      apply decide_eq_false
      intro hocc
      have hb := hocc.1
      omega

/-- The reference occurrence list is empty when the text is empty but the
pattern is not. -/
theorem ref_empty_text (text pattern : Str) (hm : 0 < pattern.length)
    (hn : text.length = 0) : refOccurrences text pattern = [] := by
  unfold refOccurrences
  have h0 : (List.range (text.length + 1)).filter
      (fun i => decide (occursAt text pattern i)) =
      (List.range 0).filter (fun i => decide (occursAt text pattern i)) := by
    apply filter_range_eq_of_false _ 0 _ (Nat.zero_le _)
    intro t _ _
    apply decide_eq_false
    intro hocc
    have := hocc.1
    omega
  rw [h0]
  rfl

/-- The KMP matcher computes exactly the reference occurrence list, for
every non-empty pattern. -/
theorem kmp_eq_ref (text pattern : Str) (hp : pattern ≠ []) :
    kmpStringMatching text pattern = refOccurrences text pattern := by
  have hm : 0 < pattern.length := List.length_pos.mpr hp
  unfold kmpStringMatching
  by_cases hn : text.length = 0
  · rw [if_pos (Or.inr hn), ref_empty_text text pattern hm hn]
  · rw [if_neg (by push_neg; exact ⟨by omega, hn⟩)]
    exact kmpGo_correct text pattern (computeLPS pattern)
      (computeLPS_correct pattern).2 hm (2 * text.length + 2) 0 0 []
      (by omega) (by omega) (by omega) hm (by omega) rfl

/- ------------------------------------------------------------------ -/
/- Rabin-Karp matcher.                                                -/
/- ------------------------------------------------------------------ -/

/-- The Horner-rule modular hash loop of script.js, lines 467-470:
`hash = (base * hash + charCode) % prime` over the characters of s, with
base 256 and prime 101 (also used for the pattern hash). -/
def hornerMod (s : Str) : Nat :=
  s.foldl (fun acc c => (256 * acc + c) % 101) 0

/-- The multiplier loop of script.js, lines 462-464:
`h = (h * base) % prime` executed k times starting from 1, so that
hPow (m-1) is base^(m-1) mod prime. -/
def hPow : Nat → Nat
  | 0 => 1
  | k + 1 => (hPow k * 256) % 101

/-- The rolled text-window hash of script.js rabinKarpStringMatching:
entry 0 is the Horner hash of the first window; entry i+1 is obtained from
entry i by the O(1) rolling update of line 491, including the negative-hash
normalization of lines 493-495. JavaScript `%` is a truncated remainder
(sign of the dividend), modelled by Int.tmod. -/
def rkHash (text : Str) (m : Nat) : Nat → Int
  | 0 => ((hornerMod (text.take m) : Nat) : Int)
  | i + 1 =>
    let v := (256 * (rkHash text m i - (text.getD i 0 : Int) * ((hPow (m - 1) : Nat) : Int))
      + (text.getD (i + m) 0 : Int)).tmod 101
    if v < 0 then v + 101 else v

/-- The Rabin-Karp matcher of script.js, lines 448-499
(rabinKarpStringMatching), identical to sentiment.js hashingSearch: guard,
then for each window the hash comparison followed (on hash equality) by
character-by-character verification. -/
def rabinKarpStringMatching (text pattern : Str) : List Nat :=
  if pattern.length = 0 ∨ text.length = 0 ∨ text.length < pattern.length then []
  else (List.range (text.length - pattern.length + 1)).filter fun i =>
    decide (rkHash text pattern.length i = ((hornerMod pattern : Nat) : Int)) &&
      windowMatch text pattern i

theorem horner_foldl_lt (l : Str) (a : Nat) (ha : a < 101) :
    l.foldl (fun acc c => (256 * acc + c) % 101) a < 101 := by
  induction l generalizing a with
  | nil => exact ha
  | cons c l ih => exact ih _ (Nat.mod_lt _ (by omega))

theorem hornerMod_lt (s : Str) : hornerMod s < 101 :=
  horner_foldl_lt s 0 (by omega)

theorem hPow_lt (k : Nat) : hPow k < 101 := by
  induction k with
  | zero => decide
  | succ k _ => exact Nat.mod_lt _ (by omega)

theorem hPow_cast (k : Nat) : ((hPow k : Nat) : ZMod 101) = (256 : ZMod 101) ^ k := by
  induction k with
  | zero => rfl
  | succ k ih =>
    rw [hPow, ZMod.natCast_mod, Nat.cast_mul, ih, pow_succ]
    norm_num

/-- Horner evaluation over ZMod 101, the mathematical value the modular
loop tracks. -/
def hornerZ (s : Str) : ZMod 101 :=
  s.foldl (fun (acc : ZMod 101) (c : Nat) => 256 * acc + (c : ZMod 101)) 0

theorem horner_foldl_cast (l : Str) (a : Nat) :
    ((l.foldl (fun acc c => (256 * acc + c) % 101) a : Nat) : ZMod 101) =
      l.foldl (fun (acc : ZMod 101) (c : Nat) => 256 * acc + (c : ZMod 101))
        ((a : Nat) : ZMod 101) := by
  induction l generalizing a with
  | nil => rfl
  | cons c l ih =>
    rw [List.foldl_cons, List.foldl_cons, ih, ZMod.natCast_mod]
    push_cast
    ring_nf

theorem hornerMod_cast (s : Str) : ((hornerMod s : Nat) : ZMod 101) = hornerZ s := by
  unfold hornerMod hornerZ
  rw [horner_foldl_cast]
  norm_num

theorem hornerZ_shift_base (l : Str) (a : ZMod 101) :
    l.foldl (fun (acc : ZMod 101) (c : Nat) => 256 * acc + (c : ZMod 101)) a =
      a * 256 ^ l.length + hornerZ l := by
  induction l generalizing a with
  | nil => simp [hornerZ]
  | cons c l ih =>
    rw [List.foldl_cons, ih]
    unfold hornerZ
    rw [List.foldl_cons, ih]
    simp only [List.length_cons]
    rw [ih]
    ring

theorem hornerZ_cons (c : Nat) (l : Str) :
    hornerZ (c :: l) = (c : ZMod 101) * 256 ^ l.length + hornerZ l := by
  unfold hornerZ
  rw [List.foldl_cons, hornerZ_shift_base]
  simp [hornerZ]

theorem hornerZ_append_singleton (l : Str) (c : Nat) :
    hornerZ (l ++ [c]) = 256 * hornerZ l + (c : ZMod 101) := by
  unfold hornerZ
  rw [List.foldl_append, List.foldl_cons, List.foldl_nil]

theorem tmod_neg_left (a b : Int) : (-a).tmod b = -(a.tmod b) := by
  have h1 := Int.tmod_add_tdiv a b
  have h2 := Int.tmod_add_tdiv (-a) b
  rw [Int.neg_tdiv] at h2
  linarith

theorem tmod_gt_neg101 (a : Int) : -101 < a.tmod 101 := by
  rcases le_or_lt 0 a with h | h
  · have := Int.tmod_nonneg (101 : Int) h
    linarith
  · have hna : 0 ≤ -a := by linarith
    have h1 : 0 ≤ (-a).tmod 101 := Int.tmod_nonneg _ hna
    have h2 : (-a).tmod 101 < 101 := Int.tmod_lt_of_pos _ (by norm_num)
    have h3 : (-a).tmod 101 = -(a.tmod 101) := tmod_neg_left a 101
    linarith

theorem tmod_cast_zmod (a : Int) : ((a.tmod 101 : Int) : ZMod 101) = (a : ZMod 101) := by
  have h1 := Int.tmod_add_tdiv a 101
  have h2 : a.tmod 101 = a - 101 * a.tdiv 101 := by linarith
  rw [h2]
  push_cast
  have h3 : ((101 : Int) : ZMod 101) = 0 := by decide
  ring_nf
  rw [show ((101 : ZMod 101)) = 0 by decide]
  ring

theorem window_cons (text : Str) (i m : Nat) (hi : i < text.length) (hm : 1 ≤ m) :
    (text.drop i).take m = text.getD i 0 :: (text.drop (i + 1)).take (m - 1) := by
  obtain ⟨k, rfl⟩ : ∃ k, m = k + 1 := ⟨m - 1, by omega⟩
  rw [List.drop_eq_getElem_cons hi, List.take_succ_cons,
    List.getD_eq_getElem text 0 hi]
  simp

theorem window_snoc (text : Str) (i m : Nat) (hbound : i + m + 1 ≤ text.length)
    (hm : 1 ≤ m) :
    (text.drop (i + 1)).take m =
      (text.drop (i + 1)).take (m - 1) ++ [text.getD (i + m) 0] := by
  obtain ⟨k, rfl⟩ : ∃ k, m = k + 1 := ⟨m - 1, by omega⟩
  rw [List.take_succ]
  have hk : k < (text.drop (i + 1)).length := by
    rw [List.length_drop]
    omega
  rw [List.getElem?_eq_getElem hk, List.getElem_drop]
  have hik : i + 1 + k < text.length := by omega
  have he : i + (k + 1) = i + 1 + k := by omega
  rw [he, List.getD_eq_getElem text 0 hik]
  simp

theorem rkHash_succ (text : Str) (m i : Nat) :
    rkHash text m (i + 1) =
      if (256 * (rkHash text m i - (text.getD i 0 : Int) * ((hPow (m - 1) : Nat) : Int))
          + (text.getD (i + m) 0 : Int)).tmod 101 < 0 then
        (256 * (rkHash text m i - (text.getD i 0 : Int) * ((hPow (m - 1) : Nat) : Int))
          + (text.getD (i + m) 0 : Int)).tmod 101 + 101
      else
        (256 * (rkHash text m i - (text.getD i 0 : Int) * ((hPow (m - 1) : Nat) : Int))
          + (text.getD (i + m) 0 : Int)).tmod 101 := by
  rfl

/-- The stored Rabin-Karp hash is always normalized into [0, 101). -/
theorem rkHash_bounds (text : Str) (m : Nat) :
    ∀ i, 0 ≤ rkHash text m i ∧ rkHash text m i < 101 := by
  intro i
  cases i with
  | zero =>
    have h0 : rkHash text m 0 = ((hornerMod (text.take m) : Nat) : Int) := rfl
    rw [h0]
    constructor
    · exact Int.natCast_nonneg _
    · exact_mod_cast hornerMod_lt (text.take m)
  | succ i =>
    rw [rkHash_succ]
    split_ifs with h
    · have := tmod_gt_neg101 (256 * (rkHash text m i -
        (text.getD i 0 : Int) * ((hPow (m - 1) : Nat) : Int)) + (text.getD (i + m) 0 : Int))
      constructor <;> linarith
    · push_neg at h
      have := Int.tmod_lt_of_pos (256 * (rkHash text m i -
        (text.getD i 0 : Int) * ((hPow (m - 1) : Nat) : Int)) + (text.getD (i + m) 0 : Int))
        (show (0 : Int) < 101 by norm_num)
      constructor <;> linarith

theorem int_nat_eq_of_zmod (r : Int) (w : Nat) (h0 : 0 ≤ r) (h1 : r < 101)
    (h2 : w < 101) (hc : (r : ZMod 101) = ((w : Nat) : ZMod 101)) : r = (w : Int) := by
  have hr : ((r.toNat : Nat) : Int) = r := Int.toNat_of_nonneg h0
  have hrt : r.toNat < 101 := by omega
  have hcast : ((r.toNat : Nat) : ZMod 101) = ((w : Nat) : ZMod 101) := by
    calc ((r.toNat : Nat) : ZMod 101)
        = (((r.toNat : Nat) : Int) : ZMod 101) := (Int.cast_natCast _).symm
      _ = (r : ZMod 101) := by rw [hr]
      _ = ((w : Nat) : ZMod 101) := hc
  have hv := congrArg ZMod.val hcast
  rw [ZMod.val_natCast_of_lt hrt, ZMod.val_natCast_of_lt h2] at hv
  omega

/-- Rolling-hash correctness: the incrementally rolled hash of every valid
window equals the direct Horner-rule evaluation of that window's character
codes modulo 101. -/
theorem rkHash_eq (text : Str) (m : Nat) (hm : 1 ≤ m) :
    ∀ i, i + m ≤ text.length →
      rkHash text m i = ((hornerMod ((text.drop i).take m) : Nat) : Int) := by
  intro i
  induction i with
  | zero =>
    intro _
    rw [List.drop_zero]
    rfl
  | succ i ih =>
    intro hb
    have hprev := ih (by omega)
    have hwi : (text.drop i).take m =
        text.getD i 0 :: (text.drop (i + 1)).take (m - 1) :=
      window_cons text i m (by omega) hm
    have hwi1 : (text.drop (i + 1)).take m =
        (text.drop (i + 1)).take (m - 1) ++ [text.getD (i + m) 0] :=
      window_snoc text i m (by omega) hm
    have hmidlen : ((text.drop (i + 1)).take (m - 1)).length = m - 1 := by
      rw [List.length_take, List.length_drop]
      omega
    rw [rkHash_succ, hprev, hwi, hwi1]
    set c1 := text.getD i 0 with hc1
    set c2 := text.getD (i + m) 0 with hc2
    set mid := (text.drop (i + 1)).take (m - 1) with hmid
    set X := 256 * (((hornerMod (c1 :: mid) : Nat) : Int)
      - (c1 : Int) * ((hPow (m - 1) : Nat) : Int)) + (c2 : Int) with hX
    have hvlt : X.tmod 101 < 101 := Int.tmod_lt_of_pos X (by norm_num)
    have hvgt : -101 < X.tmod 101 := tmod_gt_neg101 X
    have hzmod : ∀ r : Int, (r = X.tmod 101 ∨ r = X.tmod 101 + 101) →
        (r : ZMod 101) = ((hornerMod (mid ++ [c2]) : Nat) : ZMod 101) := by
      intro r hr
      have hr2 : (r : ZMod 101) = ((X.tmod 101 : Int) : ZMod 101) := by
        rcases hr with hr | hr <;> rw [hr]
        push_cast
        rw [show ((101 : ZMod 101)) = 0 by decide]
        ring
      rw [hr2, tmod_cast_zmod, hX]
      push_cast
      rw [hornerMod_cast, hornerMod_cast, hPow_cast, hornerZ_cons,
        hornerZ_append_singleton, hmidlen]
      ring
    split_ifs with h
    · exact int_nat_eq_of_zmod _ _ (by omega) (by omega)
        (hornerMod_lt (mid ++ [c2])) (hzmod _ (Or.inr rfl))
    · push_neg at h
      exact int_nat_eq_of_zmod _ _ h hvlt
        (hornerMod_lt (mid ++ [c2])) (hzmod _ (Or.inl rfl))

/-- A fully matching window is, as a list, equal to the pattern. -/
theorem windowMatch_eq_take (text pattern : Str) (i : Nat)
    (hle : i + pattern.length ≤ text.length)
    (hw : windowMatch text pattern i = true) :
    (text.drop i).take pattern.length = pattern := by
  have hchars := (windowMatch_iff text pattern i).mp hw
  apply List.ext_getElem
  · rw [List.length_take, List.length_drop]
    omega
  · intro n h1 h2
    have hn : n < pattern.length := h2
    have hin : i + n < text.length := by omega
    rw [List.getElem_take, List.getElem_drop]
    have := hchars n hn
    rw [List.getD_eq_getElem text 0 hin, List.getD_eq_getElem pattern 0 hn] at this
    exact this

/-- The Rabin-Karp matcher agrees with the naive matcher on every input:
the hash filter never rejects a true occurrence (rolling-hash correctness)
and the verification step rejects every collision. -/
theorem rk_eq_naive (text pattern : Str) :
    rabinKarpStringMatching text pattern = naiveStringMatching text pattern := by
  unfold rabinKarpStringMatching naiveStringMatching
  by_cases hg : pattern.length = 0 ∨ text.length = 0 ∨ text.length < pattern.length
  · rw [if_pos hg, if_pos hg]
  · rw [if_neg hg, if_neg hg]
    push_neg at hg
    obtain ⟨hm0, hn0, hmn⟩ := hg
    apply List.filter_congr
    intro i hi
    have hi2 := List.mem_range.mp hi
    have hle : i + pattern.length ≤ text.length := by omega
    by_cases hw : windowMatch text pattern i = true
    · rw [hw]
      have hlist := windowMatch_eq_take text pattern i hle hw
      have hhash : rkHash text pattern.length i = ((hornerMod pattern : Nat) : Int) := by
        rw [rkHash_eq text pattern.length (by omega) i hle, hlist]
      rw [hhash]
      simp
    · have hw2 : windowMatch text pattern i = false := Bool.eq_false_iff.mpr hw
      rw [hw2, Bool.and_false]

/- ------------------------------------------------------------------ -/
/- Horspool matcher.                                                  -/
/- ------------------------------------------------------------------ -/

/-- One assignment of the bad-character table loop: entry pattern[i] is set
(overwriting any earlier value) to m - 1 - i. -/
def shiftStep (pattern : Str) (tbl : Nat → Option Nat) (i : Nat) : Nat → Option Nat :=
  fun c => if c = pattern.getD i 0 then some (pattern.length - 1 - i) else tbl c

/-- The first k assignments of the bad-character table loop. -/
def shiftTableAux (pattern : Str) (k : Nat) : Nat → Option Nat :=
  (List.range k).foldl (shiftStep pattern) (fun _ => none)

/-- The bad-character shift table of script.js horspoolStringMatching,
lines 513-518 (identical in sentiment.js horspoolSearch): a JS object
populated by `for (let i = 0; i < m - 1; i++) shiftTable[pattern[i]] =
m - 1 - i;`, modelled as a partial map from code units to shifts. -/
def shiftTable (pattern : Str) : Nat → Option Nat :=
  shiftTableAux pattern (pattern.length - 1)

/-- Shift lookup with the default for absent characters, as in line 535-536:
`const shift = shiftTable[text[i + m - 1]]; i += (shift !== undefined) ?
shift : m;`. -/
def shiftOf (pattern : Str) (c : Nat) : Nat :=
  match shiftTable pattern c with
  | some s => s
  | none => pattern.length

/-- The right-to-left comparison loop of lines 522-527:
`let j = m - 1; while (j >= 0 && text[i + j] === pattern[j]) j--;`
rtlMatch text pattern i k decides whether the last k characters of the
window at i all match (so k = m is a full-window match, j below 0). -/
def rtlMatch (text pattern : Str) (i : Nat) : Nat → Bool
  | 0 => true
  | j + 1 => (text.getD (i + j) 0 == pattern.getD j 0) && rtlMatch text pattern i j

/-- The window advance of one Horspool iteration: one step after a match
(line 532, to permit overlaps), the bad-character shift otherwise. -/
def horspoolNext (text pattern : Str) (i : Nat) : Nat :=
  if rtlMatch text pattern i pattern.length then i + 1
  else i + shiftOf pattern (text.getD (i + pattern.length - 1) 0)

/-- The Horspool scan loop (lines 520-538): while the window fits, compare
right to left, record the window start on a full match, and advance by
horspoolNext. The fuel bounds the iteration count; every iteration
advances i by at least 1, so text.length + 1 units are always enough. -/
def horspoolGo (text pattern : Str) : Nat → Nat → List Nat → List Nat
  | 0, _, acc => acc
  | fuel + 1, i, acc =>
    if i + pattern.length ≤ text.length then
      horspoolGo text pattern fuel (horspoolNext text pattern i)
        (if rtlMatch text pattern i pattern.length then acc ++ [i] else acc)
    else acc

/-- The Horspool matcher of script.js, lines 505-540
(horspoolStringMatching), identical to sentiment.js horspoolSearch. -/
def horspoolStringMatching (text pattern : Str) : List Nat :=
  if pattern.length = 0 ∨ text.length = 0 ∨ text.length < pattern.length then []
  else horspoolGo text pattern (text.length + 1) 0 []

theorem rtlMatch_iff (text pattern : Str) (i : Nat) :
    ∀ k, (rtlMatch text pattern i k = true ↔
      ∀ j, j < k → text.getD (i + j) 0 = pattern.getD j 0) := by
  intro k
  induction k with
  | zero =>
    simp [rtlMatch]
  | succ k ih =>
    rw [rtlMatch, Bool.and_eq_true, ih]
    constructor
    · intro h j hj
      rcases Nat.lt_or_ge j k with hjk | hjk
      · exact h.2 j hjk
      · have hje : j = k := by omega
        subst hje
        exact beq_iff_eq.mp h.1
    · intro h
      constructor
      · exact beq_iff_eq.mpr (h k (Nat.lt_succ_self k))
      · exact fun j hj => h j (Nat.lt_succ_of_lt hj)

theorem rtlMatch_eq_windowMatch (text pattern : Str) (i : Nat) :
    rtlMatch text pattern i pattern.length = windowMatch text pattern i := by
  by_cases h : rtlMatch text pattern i pattern.length = true
  · rw [h]
    exact ((windowMatch_iff text pattern i).mpr ((rtlMatch_iff text pattern i _).mp h)).symm
  · have h1 : rtlMatch text pattern i pattern.length = false := Bool.eq_false_iff.mpr h
    rw [h1]
    symm
    apply Bool.eq_false_iff.mpr
    intro hw
    exact h ((rtlMatch_iff text pattern i _).mpr ((windowMatch_iff text pattern i).mp hw))

theorem shiftTableAux_succ (pattern : Str) (k : Nat) :
    shiftTableAux pattern (k + 1) =
      shiftStep pattern (shiftTableAux pattern k) k := by
  unfold shiftTableAux
  rw [List.range_succ, List.foldl_append, List.foldl_cons, List.foldl_nil]

/-- Characterization of the partially built bad-character table: an entry
is present exactly for the characters seen so far, and holds the shift of
the rightmost position at which the character was seen. -/
theorem shiftTableAux_spec (pattern : Str) (k : Nat) :
    ∀ c, (∀ v, shiftTableAux pattern k c = some v ↔
        ∃ i, i < k ∧ pattern.getD i 0 = c ∧ v = pattern.length - 1 - i ∧
          ∀ t, i < t → t < k → pattern.getD t 0 ≠ c) ∧
      (shiftTableAux pattern k c = none ↔
        ∀ i, i < k → pattern.getD i 0 ≠ c) := by
  induction k with
  | zero =>
    intro c
    constructor
    · intro v
      constructor
      · intro h
        exact absurd h (by unfold shiftTableAux; simp)
      · intro ⟨i, hi, _⟩
        omega
    · constructor
      · intro _ i hi
        omega
      · intro _
        rfl
  | succ k ih =>
    intro c
    rw [shiftTableAux_succ]
    unfold shiftStep
    by_cases hc : c = pattern.getD k 0
    · rw [if_pos hc]
      constructor
      · intro v
        constructor
        · intro hv
          refine ⟨k, Nat.lt_succ_self k, hc.symm, by injection hv with h; omega, ?_⟩
          intro t ht1 ht2
          omega
        · intro ⟨i, hi, hic, hv, hmax⟩
          rcases Nat.lt_or_ge i k with hik | hik
          · exact absurd hc.symm (hmax k hik (Nat.lt_succ_self k))
          · have hieq : i = k := by omega
            subst hieq
            rw [hv]
      · constructor
        · intro h
          exact absurd h (by simp)
        · intro h
          exact absurd hc.symm (h k (Nat.lt_succ_self k))
    · rw [if_neg hc]
      obtain ⟨hsome, hnone⟩ := ih c
      constructor
      · intro v
        rw [hsome v]
        constructor
        · intro ⟨i, hi, hic, hv, hmax⟩
          refine ⟨i, by omega, hic, hv, ?_⟩
          intro t ht1 ht2
          rcases Nat.lt_or_ge t k with htk | htk
          · exact hmax t ht1 htk
          · have hte : t = k := by omega
            subst hte
            exact fun he => hc he.symm
        · intro ⟨i, hi, hic, hv, hmax⟩
          have hik : i < k := by
            rcases Nat.lt_or_ge i k with h1 | h1
            · exact h1
            · have : i = k := by omega
              subst this
              exact absurd hic (fun he => hc he.symm)
          exact ⟨i, hik, hic, hv, fun t ht1 ht2 => hmax t ht1 (by omega)⟩
      · rw [hnone]
        constructor
        · intro h i hi
          rcases Nat.lt_or_ge i k with hik | hik
          · exact h i hik
          · have : i = k := by omega
            subst this
            exact fun he => hc he.symm
        · intro h i hi
          exact h i (by omega)

/-- The shift lookup either takes the stored entry or the default. -/
theorem shiftOf_eq (pattern : Str) (c : Nat) :
    (shiftTable pattern c = none ∧ shiftOf pattern c = pattern.length) ∨
    (∃ v, shiftTable pattern c = some v ∧ shiftOf pattern c = v) := by
  unfold shiftOf
  cases h : shiftTable pattern c with
  | none => exact Or.inl ⟨rfl, rfl⟩
  | some v => exact Or.inr ⟨v, rfl, rfl⟩

/-- Every shift the Horspool matcher can take is at least 1: stored entries
are m - 1 - i with i < m - 1, and the default for absent characters is m. -/
theorem shiftOf_pos (pattern : Str) (hm : 0 < pattern.length) (c : Nat) :
    1 ≤ shiftOf pattern c := by
  rcases shiftOf_eq pattern c with ⟨_, he⟩ | ⟨v, hs, he⟩
  · omega
  · rw [he]
    obtain ⟨hsome, _⟩ := shiftTableAux_spec pattern (pattern.length - 1) c
    unfold shiftTable at hs
    obtain ⟨i, hi, _, hv, _⟩ := (hsome v).mp hs
    omega

/-- Every shift is at most the pattern length. -/
theorem shiftOf_le (pattern : Str) (c : Nat) : shiftOf pattern c ≤ pattern.length := by
  rcases shiftOf_eq pattern c with ⟨_, he⟩ | ⟨v, hs, he⟩
  · omega
  · rw [he]
    obtain ⟨hsome, _⟩ := shiftTableAux_spec pattern (pattern.length - 1) c
    unfold shiftTable at hs
    obtain ⟨i, hi, _, hv, _⟩ := (hsome v).mp hs
    omega

/-- The bad-character rule: when character c occurs at position pos among
the first m - 1 pattern positions, the shift for c is bounded by the shift
of that position (the table stores the rightmost occurrence). -/
theorem shiftOf_bad_char (pattern : Str) (pos c : Nat)
    (hpos : pos < pattern.length - 1) (hchar : pattern.getD pos 0 = c) :
    shiftOf pattern c ≤ pattern.length - 1 - pos := by
  rcases shiftOf_eq pattern c with ⟨hn, he⟩ | ⟨v, hs, he⟩
  · obtain ⟨_, hnone⟩ := shiftTableAux_spec pattern (pattern.length - 1) c
    unfold shiftTable at hn
    exact absurd hchar ((hnone.mp hn) pos hpos)
  · rw [he]
    obtain ⟨hsome, _⟩ := shiftTableAux_spec pattern (pattern.length - 1) c
    unfold shiftTable at hs
    obtain ⟨i, hi, hic, hv, hmax⟩ := (hsome v).mp hs
    have hipos : pos ≤ i := by
      by_contra hlt
      push_neg at hlt
      exact (hmax pos hlt hpos) hchar
    omega

/-- Invariant-based correctness of the Horspool scan loop: the
bad-character shift never skips an occurrence. -/
theorem horspoolGo_correct (text pattern : Str) (hm : 0 < pattern.length) :
    ∀ fuel i acc,
      text.length + 1 ≤ fuel + i →
      acc = (List.range i).filter (fun k => decide (occursAt text pattern k)) →
      horspoolGo text pattern fuel i acc = refOccurrences text pattern := by
  intro fuel
  induction fuel with
  | zero =>
    intro i acc hfuel hacc
    have h0 : horspoolGo text pattern 0 i acc = acc := rfl
    rw [h0, hacc]
    unfold refOccurrences
    apply filter_range_eq_of_false _ (text.length + 1) i (by omega)
    intro t ht1 ht2
    apply decide_eq_false
    intro hocc
    have := hocc.1
    omega
  | succ fuel ih =>
    intro i acc hfuel hacc
    by_cases hcond : i + pattern.length ≤ text.length
    · rw [horspoolGo, if_pos hcond]
      by_cases hrtl : rtlMatch text pattern i pattern.length = true
      · rw [if_pos hrtl]
        have hwm : windowMatch text pattern i = true := by
          rw [← rtlMatch_eq_windowMatch]
          exact hrtl
        have hocc : occursAt text pattern i :=
          (occursAt_iff_windowMatch text pattern i hcond).mpr hwm
        have hnext : horspoolNext text pattern i = i + 1 := by
          unfold horspoolNext
          rw [if_pos hrtl]
        rw [hnext]
        apply ih (i + 1) _ (by omega)
        rw [hacc]
        symm
        apply filter_range_eq_append_of_true _ i (i + 1) (Nat.lt_succ_self i)
          (decide_eq_true hocc)
        intro t ht1 ht2
        exact absurd ht2 (by omega)
      · rw [if_neg hrtl]
        have hnext : horspoolNext text pattern i =
            i + shiftOf pattern (text.getD (i + pattern.length - 1) 0) := by
          unfold horspoolNext
          rw [if_neg hrtl]
        have hs1 : 1 ≤ shiftOf pattern (text.getD (i + pattern.length - 1) 0) :=
          shiftOf_pos pattern hm _
        have hsm : shiftOf pattern (text.getD (i + pattern.length - 1) 0) ≤
            pattern.length := shiftOf_le pattern _
        rw [hnext]
        apply ih (i + shiftOf pattern (text.getD (i + pattern.length - 1) 0)) _ (by omega)
        rw [hacc]
        symm
        apply filter_range_eq_of_false _ i
          (i + shiftOf pattern (text.getD (i + pattern.length - 1) 0)) (by omega)
        intro t ht1 ht2
        apply decide_eq_false
        intro hocc
        rcases Nat.lt_or_ge i t with hit | hit
        · have hposlt : i + pattern.length - 1 - t < pattern.length - 1 := by omega
          have hchar : pattern.getD (i + pattern.length - 1 - t) 0 =
              text.getD (i + pattern.length - 1) 0 := by
            have hx := hocc.2 (i + pattern.length - 1 - t) (by omega)
            rw [(by omega : t + (i + pattern.length - 1 - t) = i + pattern.length - 1)] at hx
            exact hx.symm
          have hb := shiftOf_bad_char pattern (i + pattern.length - 1 - t) _ hposlt hchar
          omega
        · have hteq : t = i := by omega
          subst hteq
          have hwm : windowMatch text pattern t = true :=
            (occursAt_iff_windowMatch text pattern t hcond).mp hocc
          rw [← rtlMatch_eq_windowMatch] at hwm
          exact hrtl hwm
    · rw [horspoolGo, if_neg hcond]
      rw [hacc]
      unfold refOccurrences
      rcases Nat.le_total i (text.length + 1) with hle | hle
      · symm
        apply filter_range_eq_of_false _ i (text.length + 1) hle
        intro t ht1 ht2
        apply decide_eq_false
        intro hocc
        have := hocc.1
        omega
      · apply filter_range_eq_of_false _ (text.length + 1) i hle
        intro t ht1 ht2
        apply decide_eq_false
        intro hocc
        have := hocc.1
        omega

/-- The Horspool matcher computes exactly the reference occurrence list,
for every non-empty pattern. -/
theorem horspool_eq_ref (text pattern : Str) (hp : pattern ≠ []) :
    horspoolStringMatching text pattern = refOccurrences text pattern := by
  have hm : 0 < pattern.length := List.length_pos.mpr hp
  unfold horspoolStringMatching
  by_cases hg : pattern.length = 0 ∨ text.length = 0 ∨ text.length < pattern.length
  · rw [if_pos hg]
    rcases hg with h | h | h
    · omega
    · rw [ref_empty_text text pattern hm h]
    · symm
      unfold refOccurrences
      have h0 : (List.range (text.length + 1)).filter
          (fun i => decide (occursAt text pattern i)) =
          (List.range 0).filter (fun i => decide (occursAt text pattern i)) := by
        apply filter_range_eq_of_false _ 0 _ (Nat.zero_le _)
        intro t _ _
        apply decide_eq_false
        intro hocc
        have := hocc.1
        omega
      rw [h0]
      rfl
  · rw [if_neg hg]
    exact horspoolGo_correct text pattern hm (text.length + 1) 0 [] (by omega) rfl

/- ------------------------------------------------------------------ -/
/- Assembled equivalences between the four matchers.                  -/
/- ------------------------------------------------------------------ -/

/-- KMP agrees with the naive matcher on every input. -/
theorem kmp_eq_naive (text pattern : Str) :
    kmpStringMatching text pattern = naiveStringMatching text pattern := by
  by_cases hp : pattern = []
  · subst hp
    unfold kmpStringMatching naiveStringMatching
    rw [if_pos (Or.inl List.length_nil), if_pos (Or.inl List.length_nil)]
  · rw [kmp_eq_ref text pattern hp, naive_eq_ref text pattern hp]

/-- Horspool agrees with the naive matcher on every input. -/
theorem horspool_eq_naive (text pattern : Str) :
    horspoolStringMatching text pattern = naiveStringMatching text pattern := by
  by_cases hp : pattern = []
  · subst hp
    unfold horspoolStringMatching naiveStringMatching
    rw [if_pos (Or.inl List.length_nil), if_pos (Or.inl List.length_nil)]
  · rw [horspool_eq_ref text pattern hp, naive_eq_ref text pattern hp]

/- ------------------------------------------------------------------ -/
/- The other re-implementations of the repository.                    -/
/- ------------------------------------------------------------------ -/

namespace SentimentJS

/-- naiveSearch of sentiment.js, lines 24-44. Its body is
character-for-character identical to naiveStringMatching of script.js
(same guard, same double loop), so it is modelled by the same function. -/
def naiveSearch : Str → Str → List Nat := naiveStringMatching

/-- kmpSearch of sentiment.js, lines 50-99: identical to script.js
kmpStringMatching with computeLPS inlined verbatim. -/
def kmpSearch : Str → Str → List Nat := kmpStringMatching

/-- hashingSearch of sentiment.js, lines 105-149: identical to script.js
rabinKarpStringMatching. -/
def hashingSearch : Str → Str → List Nat := rabinKarpStringMatching

/-- horspoolSearch of sentiment.js, lines 155-185: identical to script.js
horspoolStringMatching. -/
def horspoolSearch : Str → Str → List Nat := horspoolStringMatching

end SentimentJS

namespace ScriptSentiment

/-- naiveSearch of script.js, lines 1055-1073: the sentiment-analysis
helper family inside script.js. Unlike the primary family it has NO guard
clause; the loop `for (let i = 0; i <= n - m; i++)` simply does not run
when m > n (negative JS bound), and for an empty pattern the inner loop
body never runs, so j === m holds at once, at every offset. -/
def naiveSearch (text pattern : Str) : List Nat :=
  if text.length < pattern.length then []
  else (List.range (text.length - pattern.length + 1)).filter fun i =>
    windowMatch text pattern i

end ScriptSentiment

/-- Applied to the empty pattern, the unguarded naiveSearch of script.js
line 1055 records a match at every offset from 0 to text.length. -/
theorem scriptSentiment_naive_empty (text : Str) :
    ScriptSentiment.naiveSearch text [] = List.range (text.length + 1) := by
  unfold ScriptSentiment.naiveSearch
  rw [if_neg (by simp)]
  have he : text.length - List.length ([] : Str) + 1 = text.length + 1 := by simp
  rw [he]
  apply List.filter_eq_self.mpr
  intro a _
  rfl

/-- For a pattern longer than the text, the unguarded naiveSearch returns
no matches (the loop bound is negative). -/
theorem scriptSentiment_naive_long (text pattern : Str)
    (h : text.length < pattern.length) :
    ScriptSentiment.naiveSearch text pattern = [] := by
  unfold ScriptSentiment.naiveSearch
  rw [if_pos h]

namespace SearchJS

/-- ASCII case folding of String.prototype.toLowerCase as used by
search.js on movie-title data: code units 65-90 (A-Z) map to 97-122
(a-z); all other code units are unchanged. -/
def toLowerCode (c : Nat) : Nat := if 65 ≤ c ∧ c ≤ 90 then c + 32 else c

/-- kmpStringMatching of search.js, lines 59-93: the same KMP loop as
script.js (with the identical computeLPS of search.js lines 29-50), except
that BOTH text and pattern are lowercased before matching
(`text.toLowerCase()`, `pattern.toLowerCase()`, lines 64-65), and there is
an additional m > n guard. -/
def kmpStringMatching (text pattern : Str) : List Nat :=
  if pattern.length = 0 ∨ text.length = 0 then []
  else if (pattern.map toLowerCode).length = 0 ∨
      (text.map toLowerCode).length < (pattern.map toLowerCode).length then []
  else kmpGo (text.map toLowerCode) (pattern.map toLowerCode)
    (computeLPS (pattern.map toLowerCode))
    (2 * (text.map toLowerCode).length + 2) 0 0 []

end SearchJS

namespace CppMatching

/-- The pointer scan of StringMatching::naiveStringMatching in
Mathcing_Algorithms.cpp (lines 328-352): one pass over the text, pattern
offset f advancing on equal characters and resetting to 0 on mismatch or
after a full match; the text pointer is never moved backwards. -/
def naiveGo (pattern : Str) (m : Nat) : List Nat → Nat → Nat → List Nat → List Nat
  | [], _, _, acc => acc
  | c :: rest, i, f, acc =>
    if c = pattern.getD f 0 then
      if f = m - 1 then naiveGo pattern m rest (i + 1) 0 (acc ++ [i - (m - 1)])
      else naiveGo pattern m rest (i + 1) (f + 1) acc
    else naiveGo pattern m rest (i + 1) 0 acc

/-- StringMatching::naiveStringMatching of Mathcing_Algorithms.cpp. -/
def naiveStringMatching (text pattern : Str) : List Nat :=
  naiveGo pattern pattern.length text 0 0 []

/-- StringMatching::horspoolHelper of Mathcing_Algorithms.cpp (lines
304-320): like the JS bad-character table builder, but the loop also
visits the LAST pattern position; when that character has no entry yet it
is inserted with shift = pattern length (the default value). -/
def horspoolHelper (pattern : Str) : Nat → Option Nat :=
  (List.range pattern.length).foldl
    (fun tbl i =>
      if i = pattern.length - 1 then
        match tbl (pattern.getD i 0) with
        | some _ => tbl
        | none => fun c => if c = pattern.getD i 0 then some pattern.length else tbl c
      else fun c => if c = pattern.getD i 0 then some (pattern.length - 1 - i) else tbl c)
    (fun _ => none)

end CppMatching

/- ------------------------------------------------------------------ -/
/- Claim theorems.                                                    -/
/- ------------------------------------------------------------------ -/

/-- C1: for every text and every pattern, the four matchers (naive, KMP,
Rabin-Karp, Horspool) return pairwise identical sequences of match
offsets. -/
theorem C1_four_algorithms_agree (text pattern : Str) :
    (naiveStringMatching text pattern = kmpStringMatching text pattern) ∧
    (naiveStringMatching text pattern = rabinKarpStringMatching text pattern) ∧
    (naiveStringMatching text pattern = horspoolStringMatching text pattern) ∧
    (kmpStringMatching text pattern = rabinKarpStringMatching text pattern) ∧
    (kmpStringMatching text pattern = horspoolStringMatching text pattern) ∧
    (rabinKarpStringMatching text pattern = horspoolStringMatching text pattern) := by
  have h1 := kmp_eq_naive text pattern
  have h2 := rk_eq_naive text pattern
  have h3 := horspool_eq_naive text pattern
  exact ⟨h1.symm, h2.symm, h3.symm, by rw [h1, h2], by rw [h1, h3], by rw [h2, h3]⟩

/-- C2 counterexample: for the empty pattern the naive matcher returns []
while the reference occurrence set of the claim (all offsets i with
0 <= i <= len(text) - len(pattern) whose window equals the pattern
character for character) is every offset, so the claim fails as stated
for the empty pattern. -/
theorem C2_counterexample :
    naiveStringMatching [97] [] = [] ∧ refOccurrences [97] [] = [0, 1] := by
  constructor
  · rfl
  · rfl

/-- C2 amended: for every NON-EMPTY pattern the JS naive matcher
(script.js naiveStringMatching, sentiment.js naiveSearch) returns exactly
the reference occurrence list in increasing order; the C++ pointer-scan
naive matcher does not satisfy this property (it misses occurrences that
need text-pointer backtracking, e.g. pattern "aab" in text "aaab"). -/
theorem C2_naive_matches_reference (text pattern : Str) (hp : pattern ≠ []) :
    naiveStringMatching text pattern = refOccurrences text pattern ∧
    (CppMatching.naiveStringMatching [97, 97, 97, 98] [97, 97, 98] = [] ∧
      refOccurrences [97, 97, 97, 98] [97, 97, 98] = [1]) := by
  refine ⟨naive_eq_ref text pattern hp, by rfl, by rfl⟩

/-- C2 witness. -/
theorem C2_witness :
    naiveStringMatching [97, 97] [97] = refOccurrences [97, 97] [97] :=
  (C2_naive_matches_reference [97, 97] [97] (by decide)).1

/-- C3 counterexample: the unguarded naiveSearch of script.js (line 1055)
applied to the empty pattern returns a match at every offset instead of
the empty sequence. -/
theorem C3_counterexample :
    ScriptSentiment.naiveSearch [97, 98] [] = [0, 1, 2] := by
  rfl

/-- C3 amended: the guarded matcher family (script.js lines 363-540 and
sentiment.js) returns the empty sequence on an empty pattern or on a
pattern longer than the text; the second, unguarded family in script.js
(naiveSearch, line 1055) also returns the empty sequence for a pattern
longer than the text, but for the EMPTY pattern it instead records a match
at every offset from 0 to len(text). -/
theorem C3_invalid_input (text pattern : Str) :
    (pattern = [] ∨ text.length < pattern.length →
      naiveStringMatching text pattern = [] ∧
      kmpStringMatching text pattern = [] ∧
      rabinKarpStringMatching text pattern = [] ∧
      horspoolStringMatching text pattern = []) ∧
    (text.length < pattern.length → ScriptSentiment.naiveSearch text pattern = []) ∧
    ScriptSentiment.naiveSearch text [] = List.range (text.length + 1) := by
  refine ⟨?_, scriptSentiment_naive_long text pattern, scriptSentiment_naive_empty text⟩
  intro h
  have hnaive : naiveStringMatching text pattern = [] := by
    unfold naiveStringMatching
    rcases h with h | h
    · subst h
      rw [if_pos (Or.inl List.length_nil)]
    · rw [if_pos (Or.inr (Or.inr h))]
  refine ⟨hnaive, ?_, ?_, ?_⟩
  · rw [kmp_eq_naive, hnaive]
  · rw [rk_eq_naive, hnaive]
  · rw [horspool_eq_naive, hnaive]

/-- C3 witness. -/
theorem C3_witness :
    (naiveStringMatching [97, 98] [97, 98, 99] = [] ∧
      kmpStringMatching [97, 98] [97, 98, 99] = [] ∧
      rabinKarpStringMatching [97, 98] [97, 98, 99] = [] ∧
      horspoolStringMatching [97, 98] [97, 98, 99] = []) ∧
    ScriptSentiment.naiveSearch [97, 98] [97, 98, 99] = [] ∧
    ScriptSentiment.naiveSearch [97, 98] [] = List.range (List.length [97, 98] + 1) := by
  have h := C3_invalid_input [97, 98] [97, 98, 99]
  exact ⟨h.1 (Or.inr (by decide)), h.2.1 (by decide), h.2.2⟩

/-- C4: for every non-empty pattern, computeLPS returns the table whose
entry i is the length of the longest proper prefix of pattern[0..=i] that
is also a suffix of it; consequently lps[0] = 0 and lps[i] <= i, and for
the pattern "ababaca" the table is [0,0,1,2,3,0,1]. -/
theorem C4_computeLPS_correct (pattern : Str) (hp : pattern ≠ []) :
    (∀ i, i < pattern.length → (computeLPS pattern).getD i 0 = lpsSpec pattern i) ∧
    (computeLPS pattern).getD 0 0 = 0 ∧
    (∀ i, i < pattern.length → (computeLPS pattern).getD i 0 ≤ i) ∧
    computeLPS [97, 98, 97, 98, 97, 99, 97] = [0, 0, 1, 2, 3, 0, 1] := by
  have hm : 0 < pattern.length := List.length_pos.mpr hp
  have hc := (computeLPS_correct pattern).2
  refine ⟨hc, ?_, ?_, by rfl⟩
  · rw [hc 0 hm]
    have := lpsSpec_le pattern 0
    omega
  · intro i hi
    rw [hc i hi]
    exact lpsSpec_le pattern i

/-- C4 witness. -/
theorem C4_witness :
    ([97, 98] : Str) ≠ [] ∧ (computeLPS [97, 98]).getD 0 0 = 0 :=
  ⟨by decide, (C4_computeLPS_correct [97, 98] (by decide)).2.1⟩

/-- C5: for every text, every non-empty pattern no longer than the text
and every valid window start i, the rolled text-window hash for window
i+1 equals the direct Horner-rule evaluation of that window's character
codes modulo the prime 101 with base 256, and the stored hash value always
lies in [0, 101). -/
theorem C5_rolling_hash (text pattern : Str) (i : Nat) (hp : pattern ≠ [])
    (hmn : pattern.length ≤ text.length)
    (hi : i + 1 + pattern.length ≤ text.length) :
    rkHash text pattern.length (i + 1) =
      ((hornerMod ((text.drop (i + 1)).take pattern.length) : Nat) : Int) ∧
    (∀ k, 0 ≤ rkHash text pattern.length k ∧ rkHash text pattern.length k < 101) := by
  have hm : 0 < pattern.length := List.length_pos.mpr hp
  exact ⟨rkHash_eq text pattern.length hm (i + 1) hi, rkHash_bounds text pattern.length⟩

/-- C5 witness. -/
theorem C5_witness :
    rkHash [97, 98, 97] 2 1 = ((hornerMod [98, 97] : Nat) : Int) := by
  have h := (C5_rolling_hash [97, 98, 97] [98, 97] 0 (by decide) (by decide) (by decide)).1
  exact h

/-- C6 counterexample: the claim says the bad-character table for "abc"
has no entry for c, but the C++ table builder (horspoolHelper) maps the
last character c to 3 when it has not been seen earlier. -/
theorem C6_counterexample :
    CppMatching.horspoolHelper [97, 98, 99] 99 = some 3 := by
  rfl

/-- C6 amended: the JS bad-character table builder (script.js lines
513-518, sentiment.js) produces exactly the claimed mapping: an entry
exists for character c if and only if c occurs among the first m-1 pattern
positions, and it holds m-1-i for the rightmost such position i (later
occurrences overwrite earlier ones); for "abc" the JS table is
{a: 2, b: 1} with c absent. The C++ horspoolHelper additionally inserts
the pattern's last character with shift m when it was not seen earlier, so
its "abc" table also maps c to 3; since absent characters default to m,
the effective shift is unchanged. -/
theorem C6_bad_char_table (pattern : Str) (c v : Nat) :
    (shiftTable pattern c = some v ↔
      ∃ i, i < pattern.length - 1 ∧ pattern.getD i 0 = c ∧
        v = pattern.length - 1 - i ∧
        ∀ t, i < t → t < pattern.length - 1 → pattern.getD t 0 ≠ c) ∧
    (shiftTable pattern c = none ↔
      ∀ i, i < pattern.length - 1 → pattern.getD i 0 ≠ c) ∧
    (shiftTable [97, 98, 99] 97 = some 2 ∧ shiftTable [97, 98, 99] 98 = some 1 ∧
      shiftTable [97, 98, 99] 99 = none) ∧
    (CppMatching.horspoolHelper [97, 98, 99] 97 = some 2 ∧
      CppMatching.horspoolHelper [97, 98, 99] 98 = some 1 ∧
      CppMatching.horspoolHelper [97, 98, 99] 99 = some 3) := by
  obtain ⟨hsome, hnone⟩ := shiftTableAux_spec pattern (pattern.length - 1) c
  exact ⟨hsome v, hnone, ⟨by rfl, by rfl, by rfl⟩, ⟨by rfl, by rfl, by rfl⟩⟩

/-- C7: every algorithm returns a strictly increasing list of offsets with
no duplicates, and overlapping occurrences are included: all four
algorithms return [0, 1] for pattern "aa" in text "aaa". -/
theorem C7_sorted_no_dup_overlaps (text pattern : Str) :
    List.Pairwise (fun a b => a < b) (naiveStringMatching text pattern) ∧
    List.Pairwise (fun a b => a < b) (kmpStringMatching text pattern) ∧
    List.Pairwise (fun a b => a < b) (rabinKarpStringMatching text pattern) ∧
    List.Pairwise (fun a b => a < b) (horspoolStringMatching text pattern) ∧
    (naiveStringMatching text pattern).Nodup ∧
    (kmpStringMatching text pattern).Nodup ∧
    (rabinKarpStringMatching text pattern).Nodup ∧
    (horspoolStringMatching text pattern).Nodup ∧
    (naiveStringMatching [97, 97, 97] [97, 97] = [0, 1] ∧
      kmpStringMatching [97, 97, 97] [97, 97] = [0, 1] ∧
      rabinKarpStringMatching [97, 97, 97] [97, 97] = [0, 1] ∧
      horspoolStringMatching [97, 97, 97] [97, 97] = [0, 1]) := by
  have hnp : List.Pairwise (fun a b => a < b) (naiveStringMatching text pattern) := by
    unfold naiveStringMatching
    split_ifs
    · exact List.Pairwise.nil
    · exact List.Pairwise.filter _ (List.pairwise_lt_range _)
  have hk := kmp_eq_naive text pattern
  have hr := rk_eq_naive text pattern
  have hh := horspool_eq_naive text pattern
  have hkp : List.Pairwise (fun a b => a < b) (kmpStringMatching text pattern) := by
    rw [hk]; exact hnp
  have hrp : List.Pairwise (fun a b => a < b) (rabinKarpStringMatching text pattern) := by
    rw [hr]; exact hnp
  have hhp : List.Pairwise (fun a b => a < b) (horspoolStringMatching text pattern) := by
    rw [hh]; exact hnp
  refine ⟨hnp, hkp, hrp, hhp, ?_, ?_, ?_, ?_, by rfl, by decide, by decide, by rfl⟩
  · exact hnp.imp Nat.ne_of_lt
  · exact hkp.imp Nat.ne_of_lt
  · exact hrp.imp Nat.ne_of_lt
  · exact hhp.imp Nat.ne_of_lt

/-- C8: in the KMP matcher the text cursor never decreases: one iteration
of the search loop never produces a smaller text cursor (only the pattern
cursor falls back through the LPS table). -/
theorem C8_text_cursor_monotone (text pattern : Str) (i j : Nat)
    (hp : pattern ≠ []) (hin : i < text.length) :
    i ≤ (kmpStep text pattern (computeLPS pattern) i j).1 := by
  unfold kmpStep
  by_cases h1 : text.getD i 0 = pattern.getD j 0
  · rw [if_pos h1]
    dsimp only
    split_ifs <;> omega
  · rw [if_neg h1]
    dsimp only
    split_ifs <;> omega

/-- C8 witness. -/
theorem C8_witness :
    ([97] : Str) ≠ [] ∧ 0 < List.length [97, 98] ∧
      0 ≤ (kmpStep [97, 98] [97] (computeLPS [97]) 0 0).1 :=
  ⟨by decide, by decide, C8_text_cursor_monotone [97, 98] [97] 0 0 (by decide) (by decide)⟩

/-- C9 counterexample: the KMP variant of search.js lowercases both inputs
internally, so search("Hello", "hello") returns [0] there, refuting the
claim that no case folding is performed inside any matcher. -/
theorem C9_counterexample :
    SearchJS.kmpStringMatching [72, 101, 108, 108, 111] [104, 101, 108, 108, 111] = [0] := by
  rfl

/-- C9 amended: the four core matchers (script.js lines 363-540,
sentiment.js) are case-sensitive: search("Hello", "hello") returns [] for
each of them; the movie-search KMP of search.js, however, lowercases text
and pattern before matching and returns [0] on the same input. -/
theorem C9_case_sensitivity :
    naiveStringMatching [72, 101, 108, 108, 111] [104, 101, 108, 108, 111] = [] ∧
    kmpStringMatching [72, 101, 108, 108, 111] [104, 101, 108, 108, 111] = [] ∧
    rabinKarpStringMatching [72, 101, 108, 108, 111] [104, 101, 108, 108, 111] = [] ∧
    horspoolStringMatching [72, 101, 108, 108, 111] [104, 101, 108, 108, 111] = [] ∧
    SearchJS.kmpStringMatching [72, 101, 108, 108, 111] [104, 101, 108, 108, 111] = [0] := by
  refine ⟨by rfl, by decide, by decide, by rfl, by rfl⟩

/-- C10: the Horspool matcher makes strict progress on every iteration:
for a non-empty pattern the window start strictly increases, because every
stored bad-character shift m-1-i (i <= m-2) is at least 1 and the default
shift for absent characters is the full pattern length m >= 1; all shifts
are also at most m. -/
theorem C10_horspool_progress (text pattern : Str) (i : Nat) (hp : pattern ≠ [])
    (hmn : pattern.length ≤ text.length) :
    i < horspoolNext text pattern i ∧
    (∀ c v, shiftTable pattern c = some v → 1 ≤ v ∧ v ≤ pattern.length) ∧
    (∀ c, 1 ≤ shiftOf pattern c ∧ shiftOf pattern c ≤ pattern.length) := by
  have hm : 0 < pattern.length := List.length_pos.mpr hp
  refine ⟨?_, ?_, ?_⟩
  · unfold horspoolNext
    split_ifs
    · omega
    · have := shiftOf_pos pattern hm (text.getD (i + pattern.length - 1) 0)
      omega
  · intro c v hv
    obtain ⟨hsome, _⟩ := shiftTableAux_spec pattern (pattern.length - 1) c
    obtain ⟨i2, hi2, _, hveq, _⟩ := (hsome v).mp hv
    omega
  · intro c
    exact ⟨shiftOf_pos pattern hm c, shiftOf_le pattern c⟩

/-- C10 witness. -/
theorem C10_witness :
    ([98] : Str) ≠ [] ∧ 0 < horspoolNext [97, 98] [98] 0 :=
  ⟨by decide, (C10_horspool_progress [97, 98] [98] 0 (by decide) (by decide)).1⟩
